import Mathlib

/-!
Verification of the storage-proof core of `substrate/primitives/trie/src/storage_proof.rs`.

Byte sequences (`Vec<u8>`) are modelled as `List Nat`; the `BTreeSet<Vec<u8>>`
backing a `StorageProof` is modelled as a list kept strictly sorted under the
lexicographic order on bytes (Rust's derived `Ord` on `Vec<u8>`), with insertion
as ordered insert that drops byte-identical duplicates (`BTreeSet::insert`).

The compaction/decompaction engines (`sp_trie::encode_compact` /
`sp_trie::decode_compact` and the node codec of the external `trie-db` crate)
are not part of the excerpted source; where a claim depends on them they are
modelled from the spec as abstract capabilities, marked `Modelled from the
spec:` below.
-/

namespace SpTrie

/-- An encoded trie node: a byte sequence (`Vec<u8>`). -/
abbrev Bytes := List Nat

/-- A hash digest (`H::Out`), kept abstract as a byte sequence. -/
abbrev Digest := List Nat

/-- Strict lexicographic order on byte sequences: the derived `Ord` on
`Vec<u8>` that `BTreeSet<Vec<u8>>` sorts by. -/
def bytesLt : Bytes → Bytes → Bool
  | [], [] => false
  | [], _ :: _ => true
  | _ :: _, [] => false
  | a :: as, b :: bs =>
      if a < b then true else if b < a then false else bytesLt as bs

/-- The strict-order proposition behind `bytesLt`. -/
def NodeLt (a b : Bytes) : Prop := bytesLt a b = true

instance (a b : Bytes) : Decidable (NodeLt a b) := by
  unfold NodeLt
  infer_instance

/-- Ordered insertion into the sorted node list: the model of
`BTreeSet::insert` (an element equal to a present one is not re-inserted). -/
def insertSorted (x : Bytes) : List Bytes → List Bytes
  | [] => [x]
  | y :: ys =>
      if bytesLt x y then x :: y :: ys
      else if bytesLt y x then y :: insertSorted x ys
      else y :: ys

/-- The model of `BTreeSet::from_iter`: insert every element in iteration
order. -/
def fromIter (l : List Bytes) : List Bytes :=
  l.foldl (fun s x => insertSorted x s) []

/-- Boolean strict-sortedness check: the representation invariant of the
sorted list modelling `BTreeSet<Vec<u8>>`. -/
def sortedChain : List Bytes → Bool
  | [] => true
  | [_] => true
  | a :: b :: rest => bytesLt a b && sortedChain (b :: rest)

/-- Error associated with the `storage_proof` module (`StorageProofError`). -/
inductive StorageProofError where
  | DuplicateNodes
deriving DecidableEq, Repr

/-- A proof that some set of key-value pairs are included in the storage trie:
a deduplicated set of serialized trie nodes (`trie_nodes: BTreeSet<Vec<u8>>`),
modelled as the strictly sorted list of its elements. -/
structure StorageProof where
  trie_nodes : List Bytes
deriving DecidableEq, Repr

/-- `StorageProof::new`: constructs a storage proof from encoded trie nodes,
deduplicating silently via the set. -/
def StorageProof.new (l : List Bytes) : StorageProof :=
  ⟨fromIter l⟩

/-- Loop of `StorageProof::new_with_duplicate_nodes_check`: insert each node,
failing as soon as `BTreeSet::insert` reports the node already present. -/
def StorageProof.newCheckedAux :
    List Bytes → List Bytes → Except StorageProofError StorageProof
  | [], s => .ok ⟨s⟩
  | x :: xs, s =>
      if x ∈ s then .error .DuplicateNodes
      else StorageProof.newCheckedAux xs (insertSorted x s)

/-- `StorageProof::new_with_duplicate_nodes_check`: constructs a storage proof,
returning an error if the provided nodes contain duplicates. -/
def StorageProof.new_with_duplicate_nodes_check (l : List Bytes) :
    Except StorageProofError StorageProof :=
  StorageProof.newCheckedAux l []

/-- `StorageProof::empty`: a new empty proof. -/
def StorageProof.empty : StorageProof := ⟨[]⟩

/-- `StorageProof::is_empty`. -/
def StorageProof.is_empty (p : StorageProof) : Bool :=
  p.trie_nodes.isEmpty

/-- `StorageProof::len`: the number of nodes in the proof. -/
def StorageProof.len (p : StorageProof) : Nat :=
  p.trie_nodes.length

/-- `StorageProof::into_iter_nodes`: the encoded trie nodes in lexicographical
order, as the sequence the consuming iterator yields. -/
def StorageProof.into_iter_nodes (p : StorageProof) : List Bytes :=
  p.trie_nodes

/-- `StorageProof::iter_nodes`: the encoded trie nodes in lexicographical
order, as the sequence the borrowing iterator yields. -/
def StorageProof.iter_nodes (p : StorageProof) : List Bytes :=
  p.trie_nodes

/-- `StorageProof::into_nodes`: the underlying node set. -/
def StorageProof.into_nodes (p : StorageProof) : List Bytes :=
  p.trie_nodes

/-- `StorageProof::merge`: flattens the nodes of all input proofs into one
deduplicated set. -/
def StorageProof.merge (proofs : List StorageProof) : StorageProof :=
  ⟨fromIter (proofs.flatMap fun p => p.into_iter_nodes)⟩

/-- Modelled from the spec: the node store (`MemoryDB`, external `memory-db`
crate, not under the excerpted source). Per the spec it is a key-value mapping
from digest to raw node bytes carrying a per-entry reference count (arena +
explicit count field); an entry is `(digest, node bytes, reference count)`. -/
abbrev MemDB := List (Digest × Bytes × Int)

/-- Modelled from the spec: `MemoryDB::insert` of the external `memory-db`
crate: store the value keyed by its content digest, bumping the reference
count when the digest is already present. -/
def mdbInsert (hashFn : Bytes → Digest) : MemDB → Bytes → MemDB
  | [], v => [(hashFn v, v, 1)]
  | (k, w, c) :: rest, v =>
      if k = hashFn v then (k, w, c + 1) :: rest
      else (k, w, c) :: mdbInsert hashFn rest v

/-- `From<&StorageProof> for MemoryDB` / `StorageProof::to_memory_db`: insert
every node of the proof into a fresh store, keyed by its content hash. The
hasher capability is the abstract parameter `hashFn`. -/
def StorageProof.to_memory_db (hashFn : Bytes → Digest) (p : StorageProof) :
    MemDB :=
  p.iter_nodes.foldl (fun db n => mdbInsert hashFn db n) []

/-- `From<StorageProof> for MemoryDB` / `StorageProof::into_memory_db`: the
consuming form, which the source delegates to the borrowing `From`
implementation. -/
def StorageProof.into_memory_db (hashFn : Bytes → Digest) (p : StorageProof) :
    MemDB :=
  p.to_memory_db hashFn

/-- Modelled from the spec: the error taxonomy of `CompactProofError`
(declared outside the excerpted source): a required node missing
(IncompleteProof), an undecodable byte sequence (MalformedNode), and a
computed root disagreeing with the expected root (RootMismatch). -/
inductive CompactError where
  | IncompleteProof
  | MalformedNode
  | RootMismatch (expected computed : Digest)
deriving DecidableEq, Repr

/-- Storage proof in compact form: an ordered sequence of partially-encoded
nodes (`encoded_nodes: Vec<Vec<u8>>`). -/
structure CompactProof where
  encoded_nodes : List Bytes
deriving DecidableEq, Repr

/-- `CompactProof::iter_compact_encoded_nodes`: the ordered entries, the
Decompaction Engine's input stream. -/
def CompactProof.iter_compact_encoded_nodes (p : CompactProof) : List Bytes :=
  p.encoded_nodes

/-- Modelled from the spec: the Layout capability consumed by the Decompaction
Engine (the node codec of the external `trie-db` crate, not under the
excerpted source). `step db entry` decodes one compact entry against the
working store: resolve omitted-child placeholders, re-encode, hash, and insert
into the store, returning the updated store and the node's hash; `none`
signals a malformed entry. -/
structure DecodeCap where
  step : MemDB → Bytes → Option (MemDB × Digest)

/-- Modelled from the spec: the Decompaction Engine loop (`trie-db`
`decode_compact`, not under the excerpted source): process entries in order
through the Layout capability, threading the working store; a malformed entry
is an error, never a panic; the last processed node's hash is the trie root
unless the proof is empty, in which case no root exists. -/
def decodeLoop (cap : DecodeCap) :
    List Bytes → MemDB → Option Digest → Except CompactError (MemDB × Digest)
  | [], _, none => .error .IncompleteProof
  | [], db, some h => .ok (db, h)
  | e :: es, db, _ =>
      match cap.step db e with
      | none => .error .MalformedNode
      | some (db2, h) => decodeLoop cap es db2 (some h)

/-- Modelled from the spec: `sp_trie::decode_compact` (`trie_codec.rs`, not
under the excerpted source): run the Decompaction Engine over the entries
starting from an empty store, then, when an expected root is supplied and the
computed root differs, fail with a root-mismatch error. -/
def decode_compact (cap : DecodeCap) (entries : List Bytes)
    (expected_root : Option Digest) : Except CompactError (MemDB × Digest) :=
  match decodeLoop cap entries [] none with
  | .error e => .error e
  | .ok (db, root) =>
      match expected_root with
      | none => .ok (db, root)
      | some e => if root = e then .ok (db, root)
                  else .error (.RootMismatch e root)

/-- `CompactProof::to_memory_db`: decode into a fresh `MemoryDB`, returning
the store and the computed root. -/
def CompactProof.to_memory_db (cap : DecodeCap) (p : CompactProof)
    (expected_root : Option Digest) : Except CompactError (MemDB × Digest) :=
  decode_compact cap p.iter_compact_encoded_nodes expected_root

/-- `CompactProof::to_storage_proof`: decode into a fresh `MemoryDB`, then
keep exactly the drained entries whose reference count is positive
(`(kv.1).1 > 0`), rebuilding a `StorageProof` from their node bytes. -/
def CompactProof.to_storage_proof (cap : DecodeCap) (p : CompactProof)
    (expected_root : Option Digest) :
    Except CompactError (StorageProof × Digest) :=
  match decode_compact cap p.iter_compact_encoded_nodes expected_root with
  | .error e => .error e
  | .ok (db, root) =>
      .ok (StorageProof.new (db.filterMap fun kv =>
        if 0 < kv.2.2 then some kv.2.1 else none), root)

/-- `StorageProof::into_compact_proof`: build the memory store from the proof
(consuming form) and run the Compaction Engine against the root. The engine
(`sp_trie::encode_compact`, not under the excerpted source) is the abstract
parameter `enc`. -/
def StorageProof.into_compact_proof (hashFn : Bytes → Digest)
    (enc : MemDB → Digest → Except CompactError CompactProof)
    (p : StorageProof) (root : Digest) : Except CompactError CompactProof :=
  enc (p.into_memory_db hashFn) root

/-- `StorageProof::to_compact_proof`: build the memory store from the proof
(borrowing form) and run the Compaction Engine against the root. -/
def StorageProof.to_compact_proof (hashFn : Bytes → Digest)
    (enc : MemDB → Digest → Except CompactError CompactProof)
    (p : StorageProof) (root : Digest) : Except CompactError CompactProof :=
  enc (p.to_memory_db hashFn) root

/-- `StorageProof::encoded_compact_size`: compute the compact proof and return
its encoded byte length (`encoded_size`, the external SCALE codec capability,
the abstract parameter `encodedSize`), or `None` on error. -/
def StorageProof.encoded_compact_size (hashFn : Bytes → Digest)
    (enc : MemDB → Digest → Except CompactError CompactProof)
    (encodedSize : CompactProof → Nat) (p : StorageProof) (root : Digest) :
    Option Nat :=
  (p.into_compact_proof hashFn enc root).toOption.map encodedSize

/-- A sample Layout capability for concrete evaluation: it rejects the entry
`[135]` (the malformed node of the source's test) and accepts any other entry,
storing it under itself as digest with reference count 1. -/
def sampleCap : DecodeCap :=
  ⟨fun db b => if b = [135] then none else some ((b, b, 1) :: db, b)⟩

/-- A sample Layout capability for concrete evaluation that accepts every
entry, storing it with reference count 0 for the entry `[9]` and 1
otherwise. -/
def mixCap : DecodeCap :=
  ⟨fun db b => some ((b, b, if b = [9] then 0 else 1) :: db, b)⟩

/-- A sample Compaction Engine for concrete evaluation: always succeeds with a
one-entry compact proof. -/
def okEnc : MemDB → Digest → Except CompactError CompactProof :=
  fun _ _ => .ok ⟨[[1]]⟩

theorem bytesLt_irrefl (a : Bytes) : bytesLt a a = false := by
  induction a with
  | nil => rfl
  | cons x xs ih => simp [bytesLt, ih]

theorem bytesLt_asymm {a b : Bytes} (h : bytesLt a b = true) :
    bytesLt b a = false := by
  induction a generalizing b with
  | nil =>
    cases b with
    | nil => simp [bytesLt] at h
    | cons y ys => rfl
  | cons x xs ih =>
    cases b with
    | nil => simp [bytesLt] at h
    | cons y ys =>
      rcases Nat.lt_trichotomy x y with hxy | hxy | hxy
      · simp [bytesLt, hxy, Nat.lt_asymm hxy]
      · subst hxy
        simp only [bytesLt, Nat.lt_irrefl, if_false] at h ⊢
        exact ih h
      · simp [bytesLt, hxy, Nat.lt_asymm hxy] at h

theorem bytesLt_antisymm {a b : Bytes} (h1 : bytesLt a b = false)
    (h2 : bytesLt b a = false) : a = b := by
  induction a generalizing b with
  | nil =>
    cases b with
    | nil => rfl
    | cons y ys => simp [bytesLt] at h1
  | cons x xs ih =>
    cases b with
    | nil => simp [bytesLt] at h2
    | cons y ys =>
      rcases Nat.lt_trichotomy x y with hxy | hxy | hxy
      · simp [bytesLt, hxy] at h1
      · subst hxy
        simp only [bytesLt, Nat.lt_irrefl, if_false] at h1 h2
        exact congrArg (List.cons x) (ih h1 h2)
      · simp [bytesLt, hxy, Nat.lt_asymm hxy] at h2

theorem bytesLt_trans {a b c : Bytes} (h1 : bytesLt a b = true)
    (h2 : bytesLt b c = true) : bytesLt a c = true := by
  induction a generalizing b c with
  | nil =>
    cases c with
    | nil =>
      cases b with
      | nil => simp [bytesLt] at h1
      | cons y ys => simp [bytesLt] at h2
    | cons z zs => rfl
  | cons x xs ih =>
    cases b with
    | nil => simp [bytesLt] at h1
    | cons y ys =>
      cases c with
      | nil => simp [bytesLt] at h2
      | cons z zs =>
        rcases Nat.lt_trichotomy x y with hxy | hxy | hxy
        · rcases Nat.lt_trichotomy y z with hyz | hyz | hyz
          · simp [bytesLt, Nat.lt_trans hxy hyz]
          · subst hyz
            simp [bytesLt, hxy]
          · simp [bytesLt, hyz, Nat.lt_asymm hyz] at h2
        · subst hxy
          rcases Nat.lt_trichotomy x z with hxz | hxz | hxz
          · simp [bytesLt, hxz]
          · subst hxz
            simp only [bytesLt, Nat.lt_irrefl, if_false] at h1 h2 ⊢
            exact ih h1 h2
          · simp [bytesLt, hxz, Nat.lt_asymm hxz] at h2
        · simp [bytesLt, hxy, Nat.lt_asymm hxy] at h1

theorem nodeLt_irrefl (a : Bytes) : ¬ NodeLt a a := by
  simp [NodeLt, bytesLt_irrefl]

theorem nodeLt_asymm {a b : Bytes} (h : NodeLt a b) : ¬ NodeLt b a := by
  simp [NodeLt, bytesLt_asymm h]

theorem bytesLt_iff_lex {a b : Bytes} :
    bytesLt a b = true ↔ List.Lex (· < ·) a b := by
  induction a generalizing b with
  | nil =>
    cases b with
    | nil =>
      constructor
      · intro h
        simp [bytesLt] at h
      · intro h
        cases h
    | cons y ys => exact ⟨fun _ => List.Lex.nil, fun _ => rfl⟩
  | cons x xs ih =>
    cases b with
    | nil =>
      constructor
      · intro h
        simp [bytesLt] at h
      · intro h
        cases h
    | cons y ys =>
      rcases Nat.lt_trichotomy x y with hxy | hxy | hxy
      · constructor
        · intro _
          exact List.Lex.rel hxy
        · intro _
          simp [bytesLt, hxy]
      · subst hxy
        constructor
        · intro h
          refine List.Lex.cons (ih.mp ?_)
          simpa [bytesLt, Nat.lt_irrefl] using h
        · intro h
          cases h with
          | cons h2 => simpa [bytesLt, Nat.lt_irrefl] using ih.mpr h2
          | rel h2 => exact absurd h2 (Nat.lt_irrefl x)
      · constructor
        · intro h
          simp [bytesLt, hxy, Nat.lt_asymm hxy] at h
        · intro h
          cases h with
          | cons h2 => exact absurd hxy (Nat.lt_irrefl x)
          | rel h2 => exact absurd h2 (Nat.lt_asymm hxy)

theorem mem_insertSorted {z x : Bytes} {s : List Bytes} :
    z ∈ insertSorted x s ↔ z = x ∨ z ∈ s := by
  induction s with
  | nil => simp [insertSorted]
  | cons y ys ih =>
    by_cases h1 : bytesLt x y = true
    · rw [show insertSorted x (y :: ys) = x :: y :: ys by
        simp [insertSorted, h1]]
      simp
    · by_cases h2 : bytesLt y x = true
      · rw [show insertSorted x (y :: ys) = y :: insertSorted x ys by
          simp [insertSorted, h1, h2]]
        simp only [List.mem_cons, ih]
        tauto
      · have h1f : bytesLt x y = false := by simpa using h1
        have h2f : bytesLt y x = false := by simpa using h2
        have hxy : x = y := bytesLt_antisymm h1f h2f
        subst hxy
        rw [show insertSorted x (x :: ys) = x :: ys by
          simp [insertSorted, h1, h2]]
        simp only [List.mem_cons]
        tauto

theorem pairwise_insertSorted {x : Bytes} {s : List Bytes}
    (h : List.Pairwise NodeLt s) : List.Pairwise NodeLt (insertSorted x s) := by
  induction s with
  | nil => simp [insertSorted]
  | cons y ys ih =>
    rcases List.pairwise_cons.mp h with ⟨hy, hys⟩
    by_cases h1 : bytesLt x y = true
    · rw [show insertSorted x (y :: ys) = x :: y :: ys by simp [insertSorted, h1]]
      refine List.pairwise_cons.mpr ⟨?_, h⟩
      intro z hz
      rcases List.mem_cons.mp hz with rfl | hz2
      · exact h1
      · exact bytesLt_trans h1 (hy z hz2)
    · by_cases h2 : bytesLt y x = true
      · rw [show insertSorted x (y :: ys) = y :: insertSorted x ys by
          simp [insertSorted, h1, h2]]
        refine List.pairwise_cons.mpr ⟨?_, ih hys⟩
        intro z hz
        rcases mem_insertSorted.mp hz with rfl | hz2
        · exact h2
        · exact hy z hz2
      · rw [show insertSorted x (y :: ys) = y :: ys by simp [insertSorted, h1, h2]]
        exact h

theorem length_insertSorted_of_not_mem {x : Bytes} {s : List Bytes}
    (h : x ∉ s) : (insertSorted x s).length = s.length + 1 := by
  induction s with
  | nil => rfl
  | cons y ys ih =>
    have hxy : x ≠ y := by
      intro e
      subst e
      exact h (List.mem_cons_self x ys)
    by_cases h1 : bytesLt x y = true
    · simp [insertSorted, h1]
    · by_cases h2 : bytesLt y x = true
      · have hx2 : x ∉ ys := fun hm => h (List.mem_cons_of_mem y hm)
        simp [insertSorted, h1, h2, ih hx2]
      · have h1f : bytesLt x y = false := by simpa using h1
        have h2f : bytesLt y x = false := by simpa using h2
        exact absurd (bytesLt_antisymm h1f h2f) hxy

theorem mem_foldl_insertSorted {z : Bytes} (l s : List Bytes) :
    z ∈ l.foldl (fun s x => insertSorted x s) s ↔ z ∈ s ∨ z ∈ l := by
  induction l generalizing s with
  | nil => simp
  | cons x xs ih =>
    simp only [List.foldl_cons]
    rw [ih (insertSorted x s)]
    simp only [mem_insertSorted, List.mem_cons]
    tauto

theorem pairwise_foldl_insertSorted (l : List Bytes) (s : List Bytes)
    (hs : List.Pairwise NodeLt s) :
    List.Pairwise NodeLt (l.foldl (fun s x => insertSorted x s) s) := by
  induction l generalizing s with
  | nil => simpa
  | cons x xs ih => exact ih _ (pairwise_insertSorted hs)

theorem length_foldl_insertSorted (l s : List Bytes) (hl : l.Nodup)
    (hdisj : ∀ x ∈ l, x ∉ s) :
    (l.foldl (fun s x => insertSorted x s) s).length = s.length + l.length := by
  induction l generalizing s with
  | nil => simp
  | cons x xs ih =>
    rcases List.nodup_cons.mp hl with ⟨hx, hxs⟩
    have hdisj2 : ∀ y ∈ xs, y ∉ insertSorted x s := by
      intro y hy hmem
      rcases mem_insertSorted.mp hmem with rfl | hmem2
      · exact hx hy
      · exact hdisj y (List.mem_cons_of_mem x hy) hmem2
    simp only [List.foldl_cons]
    rw [ih (insertSorted x s) hxs hdisj2,
      length_insertSorted_of_not_mem (hdisj x (List.mem_cons_self x xs))]
    simp only [List.length_cons]
    omega

theorem sorted_ext {s : List Bytes} : ∀ {t : List Bytes},
    List.Pairwise NodeLt s → List.Pairwise NodeLt t →
    (∀ z, z ∈ s ↔ z ∈ t) → s = t := by
  induction s with
  | nil =>
    intro t _ _ h
    cases t with
    | nil => rfl
    | cons b bs =>
      exact absurd ((h b).mpr (List.mem_cons_self b bs)) (List.not_mem_nil b)
  | cons a as ih =>
    intro t hs ht h
    cases t with
    | nil =>
      exact absurd ((h a).mp (List.mem_cons_self a as)) (List.not_mem_nil a)
    | cons b bs =>
      rcases List.pairwise_cons.mp hs with ⟨ha, has⟩
      rcases List.pairwise_cons.mp ht with ⟨hb, hbs⟩
      have hab : a = b := by
        rcases List.mem_cons.mp ((h a).mp (List.mem_cons_self a as)) with e | hmem
        · exact e
        · rcases List.mem_cons.mp ((h b).mpr (List.mem_cons_self b bs)) with
            e | hmem2
          · exact e.symm
          · exact absurd (ha b hmem2) (nodeLt_asymm (hb a hmem))
      subst hab
      have hmems : ∀ z, z ∈ as ↔ z ∈ bs := by
        intro z
        constructor
        · intro hz
          rcases List.mem_cons.mp ((h z).mp (List.mem_cons_of_mem a hz)) with
            e | hz2
          · subst e
            exact absurd (ha z hz) (nodeLt_irrefl z)
          · exact hz2
        · intro hz
          rcases List.mem_cons.mp ((h z).mpr (List.mem_cons_of_mem a hz)) with
            e | hz2
          · subst e
            exact absurd (hb z hz) (nodeLt_irrefl z)
          · exact hz2
      rw [ih has hbs hmems]

theorem sortedChain_iff_pairwise (l : List Bytes) :
    sortedChain l = true ↔ List.Pairwise NodeLt l := by
  induction l with
  | nil => simp [sortedChain]
  | cons a t ih =>
    cases t with
    | nil => simp [sortedChain]
    | cons b rest =>
      rw [show sortedChain (a :: b :: rest) =
        (bytesLt a b && sortedChain (b :: rest)) from rfl]
      constructor
      · intro h
        rw [Bool.and_eq_true] at h
        obtain ⟨h1, h2⟩ := h
        have hp := ih.mp h2
        refine List.pairwise_cons.mpr ⟨?_, hp⟩
        intro z hz
        rcases List.mem_cons.mp hz with rfl | hz2
        · exact h1
        · rcases List.pairwise_cons.mp hp with ⟨hbz, _⟩
          exact bytesLt_trans h1 (hbz z hz2)
      · intro h
        rcases List.pairwise_cons.mp h with ⟨ha, hrest⟩
        have h2 := ih.mpr hrest
        have h1 : bytesLt a b = true := ha b (List.mem_cons_self b rest)
        simp [h1, h2]

theorem mem_fromIter {z : Bytes} (l : List Bytes) :
    z ∈ fromIter l ↔ z ∈ l := by
  unfold fromIter
  rw [mem_foldl_insertSorted]
  simp

theorem pairwise_fromIter (l : List Bytes) :
    List.Pairwise NodeLt (fromIter l) :=
  pairwise_foldl_insertSorted l [] List.Pairwise.nil

theorem length_fromIter_nodup {l : List Bytes} (h : l.Nodup) :
    (fromIter l).length = l.length := by
  unfold fromIter
  rw [length_foldl_insertSorted l [] h (fun x _ => List.not_mem_nil x)]
  simp

theorem storageProof_eq_of_nodes_eq {p q : StorageProof}
    (h : p.trie_nodes = q.trie_nodes) : p = q := by
  cases p
  cases q
  cases h
  rfl

theorem newCheckedAux_ok : ∀ (l s : List Bytes), l.Nodup →
    (∀ x ∈ l, x ∉ s) →
    StorageProof.newCheckedAux l s =
      .ok ⟨l.foldl (fun s x => insertSorted x s) s⟩ := by
  intro l
  induction l with
  | nil =>
    intro s _ _
    rfl
  | cons x xs ih =>
    intro s hl hdisj
    rcases List.nodup_cons.mp hl with ⟨hx, hxs⟩
    have hxns : x ∉ s := hdisj x (List.mem_cons_self x xs)
    have hdisj2 : ∀ y ∈ xs, y ∉ insertSorted x s := by
      intro y hy hmem
      rcases mem_insertSorted.mp hmem with rfl | hmem2
      · exact hx hy
      · exact hdisj y (List.mem_cons_of_mem x hy) hmem2
    rw [show StorageProof.newCheckedAux (x :: xs) s =
      StorageProof.newCheckedAux xs (insertSorted x s) by
        simp [StorageProof.newCheckedAux, hxns]]
    rw [ih (insertSorted x s) hxs hdisj2]
    rfl

theorem newCheckedAux_err : ∀ (l s : List Bytes),
    (¬ l.Nodup ∨ ∃ x ∈ l, x ∈ s) →
    StorageProof.newCheckedAux l s = .error .DuplicateNodes := by
  intro l
  induction l with
  | nil =>
    intro s h
    rcases h with h | ⟨x, hx, _⟩
    · exact absurd List.nodup_nil h
    · exact absurd hx (List.not_mem_nil x)
  | cons x xs ih =>
    intro s h
    by_cases hmem : x ∈ s
    · simp [StorageProof.newCheckedAux, hmem]
    · rw [show StorageProof.newCheckedAux (x :: xs) s =
        StorageProof.newCheckedAux xs (insertSorted x s) by
          simp [StorageProof.newCheckedAux, hmem]]
      apply ih
      rcases h with h | ⟨y, hy, hys⟩
      · by_cases hxxs : x ∈ xs
        · exact Or.inr ⟨x, hxxs, mem_insertSorted.mpr (Or.inl rfl)⟩
        · refine Or.inl fun hnd => h (List.nodup_cons.mpr ⟨hxxs, hnd⟩)
      · rcases List.mem_cons.mp hy with rfl | hy2
        · exact absurd hys hmem
        · exact Or.inr ⟨y, hy2, mem_insertSorted.mpr (Or.inr hys)⟩

/-- C5: for every duplicate-free list of byte sequences `S`,
`StorageProof::new(S)` has `len()` equal to the number of elements of `S`, and
both `iter_nodes` and `into_iter_nodes` yield exactly the elements of `S` as a
set (order-independent set equality). -/
theorem new_len_card_and_iter_mem (S : List Bytes) (h : S.Nodup) :
    (StorageProof.new S).len = S.length ∧
    (∀ z, z ∈ (StorageProof.new S).iter_nodes ↔ z ∈ S) ∧
    (∀ z, z ∈ (StorageProof.new S).into_iter_nodes ↔ z ∈ S) := by
  refine ⟨?_, ?_, ?_⟩
  · exact length_fromIter_nodup h
  · intro z
    exact mem_fromIter S
  · intro z
    exact mem_fromIter S

/-- C5 witness: concrete evaluation of `new` at the duplicate-free list
`[[2], [1]]`. -/
theorem new_len_card_and_iter_mem_witness :
    (StorageProof.new [[2], [1]]).len = [[2], [1]].length :=
  (new_len_card_and_iter_mem [[2], [1]] (by decide)).1

/-- C4: for every list of byte sequences `S`, `StorageProof::new(S)` succeeds
with `len()` equal to the number of distinct elements of `S`; if `S` contains
a duplicate, `new_with_duplicate_nodes_check(S)` fails with `DuplicateNodes`,
and if `S` is duplicate-free it succeeds with a proof equal to
`StorageProof::new(S)`. -/
theorem new_with_duplicate_nodes_check_spec (S : List Bytes) :
    (StorageProof.new S).len = S.dedup.length ∧
    (¬ S.Nodup →
      StorageProof.new_with_duplicate_nodes_check S =
        .error .DuplicateNodes) ∧
    (S.Nodup →
      StorageProof.new_with_duplicate_nodes_check S =
        .ok (StorageProof.new S)) := by
  refine ⟨?_, ?_, ?_⟩
  · have he : fromIter S = fromIter S.dedup :=
      sorted_ext (pairwise_fromIter S) (pairwise_fromIter S.dedup)
        (fun z => by rw [mem_fromIter, mem_fromIter, List.mem_dedup])
    show (fromIter S).length = S.dedup.length
    rw [he, length_fromIter_nodup (List.nodup_dedup S)]
  · intro h
    exact newCheckedAux_err S [] (Or.inl h)
  · intro h
    exact newCheckedAux_ok S [] h (fun x _ => List.not_mem_nil x)

/-- C4 witness: the checked constructor rejects a concrete duplicated list and
accepts a concrete duplicate-free one, matching `new`. -/
theorem new_with_duplicate_nodes_check_spec_witness :
    StorageProof.new_with_duplicate_nodes_check [[1], [0], [1]] =
      .error .DuplicateNodes ∧
    StorageProof.new_with_duplicate_nodes_check [[1], [0]] =
      .ok (StorageProof.new [[1], [0]]) :=
  ⟨(new_with_duplicate_nodes_check_spec [[1], [0], [1]]).2.1 (by decide),
   (new_with_duplicate_nodes_check_spec [[1], [0]]).2.2 (by decide)⟩

/-- C8: `StorageProof::merge` is commutative and idempotent on node content:
`merge([A, B]) = merge([B, A])` for all proofs, `merge([A, A]) = A` for every
well-formed proof (every proof the constructors build), and the merged node
set is the union of the inputs' node sets. -/
theorem merge_comm_idem (A B : StorageProof)
    (hA : sortedChain A.trie_nodes = true) :
    StorageProof.merge [A, B] = StorageProof.merge [B, A] ∧
    StorageProof.merge [A, A] = A ∧
    (∀ z, z ∈ (StorageProof.merge [A, B]).iter_nodes ↔
      z ∈ A.iter_nodes ∨ z ∈ B.iter_nodes) := by
  have hmem : ∀ (X Y : StorageProof) (z : Bytes),
      z ∈ (StorageProof.merge [X, Y]).trie_nodes ↔
        z ∈ X.trie_nodes ∨ z ∈ Y.trie_nodes := by
    intro X Y z
    show z ∈ fromIter ([X, Y].flatMap fun p => p.into_iter_nodes) ↔ _
    rw [mem_fromIter]
    simp [StorageProof.into_iter_nodes]
  refine ⟨?_, ?_, ?_⟩
  · apply storageProof_eq_of_nodes_eq
    apply sorted_ext (pairwise_fromIter _) (pairwise_fromIter _)
    intro z
    rw [mem_fromIter, mem_fromIter]
    simp only [List.flatMap_cons, List.flatMap_nil, List.mem_append,
      List.append_nil, StorageProof.into_iter_nodes]
    tauto
  · apply storageProof_eq_of_nodes_eq
    apply sorted_ext (pairwise_fromIter _)
      ((sortedChain_iff_pairwise A.trie_nodes).mp hA)
    intro z
    rw [mem_fromIter]
    simp only [List.flatMap_cons, List.flatMap_nil, List.mem_append,
      List.append_nil, StorageProof.into_iter_nodes]
    tauto
  · intro z
    exact hmem A B z

/-- C8 witness: commutativity and idempotence of `merge` at concrete
proofs. -/
theorem merge_comm_idem_witness :
    StorageProof.merge [StorageProof.new [[1]], StorageProof.new [[2]]] =
      StorageProof.merge [StorageProof.new [[2]], StorageProof.new [[1]]] ∧
    StorageProof.merge [StorageProof.new [[1]], StorageProof.new [[1]]] =
      StorageProof.new [[1]] :=
  ⟨(merge_comm_idem (StorageProof.new [[1]]) (StorageProof.new [[2]])
      (by decide)).1,
   (merge_comm_idem (StorageProof.new [[1]]) (StorageProof.new [[2]])
      (by decide)).2.1⟩

/-- C9: the node sequence a proof iterates is strictly increasing in
lexicographic order on the raw bytes, and proofs built from permutations of
the same node list compare equal and iterate identically. -/
theorem iter_nodes_sorted_and_perm_invariant (S T : List Bytes)
    (h : S.Perm T) :
    List.Pairwise (fun a b => List.Lex (· < ·) a b)
      (StorageProof.new S).iter_nodes ∧
    StorageProof.new S = StorageProof.new T ∧
    (StorageProof.new S).iter_nodes = (StorageProof.new T).iter_nodes := by
  have hperm : StorageProof.new S = StorageProof.new T := by
    apply storageProof_eq_of_nodes_eq
    refine sorted_ext (pairwise_fromIter S) (pairwise_fromIter T) fun z => ?_
    show z ∈ fromIter S ↔ z ∈ fromIter T
    rw [mem_fromIter, mem_fromIter]
    exact h.mem_iff
  refine ⟨?_, hperm, by rw [hperm]⟩
  exact (pairwise_fromIter S).imp (fun hab => bytesLt_iff_lex.mp hab)

/-- C9 witness: two permutations of a concrete node list build equal proofs
with identical iteration sequences. -/
theorem iter_nodes_sorted_and_perm_invariant_witness :
    StorageProof.new [[2], [1], [3]] = StorageProof.new [[3], [1], [2]] ∧
    (StorageProof.new [[2], [1], [3]]).iter_nodes =
      (StorageProof.new [[3], [1], [2]]).iter_nodes :=
  ⟨(iter_nodes_sorted_and_perm_invariant [[2], [1], [3]] [[3], [1], [2]]
      (by decide)).2.1,
   (iter_nodes_sorted_and_perm_invariant [[2], [1], [3]] [[3], [1], [2]]
      (by decide)).2.2⟩

theorem decode_compact_mismatch {cap : DecodeCap} {entries : List Bytes}
    {E : Digest} {db : MemDB} {r : Digest}
    (hl : decodeLoop cap entries [] none = .ok (db, r)) (hne : r ≠ E) :
    decode_compact cap entries (some E) =
      .error (.RootMismatch E r) := by
  unfold decode_compact
  rw [hl]
  dsimp only
  rw [if_neg hne]

theorem decode_compact_ok_root {cap : DecodeCap} {entries : List Bytes}
    {E : Digest} {res : MemDB × Digest}
    (h : decode_compact cap entries (some E) = .ok res) : res.2 = E := by
  unfold decode_compact at h
  split at h
  · cases h
  · next db root heq =>
    dsimp only at h
    split at h
    · next hroot =>
      cases h
      exact hroot
    · cases h

theorem to_storage_proof_eq_ok {cap : DecodeCap} {p : CompactProof}
    {er : Option Digest} {sp : StorageProof} {r : Digest}
    (h : p.to_storage_proof cap er = .ok (sp, r)) :
    ∃ db, decode_compact cap p.encoded_nodes er = .ok (db, r) ∧
      sp = StorageProof.new (db.filterMap fun kv =>
        if 0 < kv.2.2 then some kv.2.1 else none) := by
  unfold CompactProof.to_storage_proof at h
  split at h
  · cases h
  · next db root heq =>
    simp only [Except.ok.injEq, Prod.mk.injEq] at h
    obtain ⟨h1, h2⟩ := h
    subst h2
    exact ⟨db, heq, h1.symm⟩

/-- C2: a compact proof all of whose entries the Layout capability rejects as
malformed (in particular the single-entry proof `[[135]]` of the source's
robustness test) makes `to_memory_db(None)` return an error value, the
total-function embedding of "error, never a panic". -/
theorem to_memory_db_malformed_errors (cap : DecodeCap) (p : CompactProof)
    (hne : p.encoded_nodes ≠ [])
    (h : ∀ db b, b ∈ p.encoded_nodes → cap.step db b = none) :
    p.to_memory_db cap none = .error CompactError.MalformedNode := by
  rcases p with ⟨nodes⟩
  cases nodes with
  | nil => exact absurd rfl hne
  | cons e es =>
    have hs : cap.step [] e = none := h [] e (List.mem_cons_self e es)
    show decode_compact cap (e :: es) none = _
    unfold decode_compact decodeLoop
    rw [hs]

/-- C2 witness: the invalid single-entry compact proof `[[135]]` is rejected
with an error by `to_memory_db` under the sample layout capability. -/
theorem to_memory_db_malformed_errors_witness :
    CompactProof.to_memory_db sampleCap ⟨[[135]]⟩ none =
      .error CompactError.MalformedNode :=
  to_memory_db_malformed_errors sampleCap ⟨[[135]]⟩ (by decide)
    (fun db b hb => by rw [List.mem_singleton.mp hb]; rfl)

/-- C3: with an expected root `E` supplied, `to_memory_db` and
`to_storage_proof` never succeed with a root other than `E`, and when the
Decompaction Engine computes a root different from `E` both fail with a
root-mismatch error. -/
theorem expected_root_mismatch_spec (cap : DecodeCap) (p : CompactProof)
    (E : Digest) :
    (∀ res, p.to_memory_db cap (some E) = .ok res → res.2 = E) ∧
    (∀ res, p.to_storage_proof cap (some E) = .ok res → res.2 = E) ∧
    (∀ db r, decodeLoop cap p.encoded_nodes [] none = .ok (db, r) → r ≠ E →
      p.to_memory_db cap (some E) = .error (CompactError.RootMismatch E r) ∧
      p.to_storage_proof cap (some E) =
        .error (CompactError.RootMismatch E r)) := by
  refine ⟨?_, ?_, ?_⟩
  · intro res hres
    exact decode_compact_ok_root hres
  · rintro ⟨sp, r⟩ hres
    rcases to_storage_proof_eq_ok hres with ⟨db, hdc, _⟩
    show r = E
    exact decode_compact_ok_root hdc
  · intro db r hl hne
    constructor
    · show decode_compact cap p.encoded_nodes (some E) = _
      exact decode_compact_mismatch hl hne
    · simp only [CompactProof.to_storage_proof,
        CompactProof.iter_compact_encoded_nodes]
      rw [decode_compact_mismatch hl hne]

/-- C3 witness: with sample capability and proof, supplying the wrong expected
root `[9]` against computed root `[5]` yields a RootMismatch error from both
conversions. -/
theorem expected_root_mismatch_spec_witness :
    CompactProof.to_memory_db sampleCap ⟨[[5]]⟩ (some [9]) =
      .error (CompactError.RootMismatch [9] [5]) ∧
    CompactProof.to_storage_proof sampleCap ⟨[[5]]⟩ (some [9]) =
      .error (CompactError.RootMismatch [9] [5]) :=
  (expected_root_mismatch_spec sampleCap ⟨[[5]]⟩ [9]).2.2 [([5], [5], 1)] [5]
    rfl (by decide)

/-- C6: a successful `to_storage_proof` returns the storage proof built from
exactly the reconstructed nodes whose reference count in the working store is
positive; zero-count scaffolding entries are excluded. -/
theorem to_storage_proof_filters_positive_refcount (cap : DecodeCap)
    (p : CompactProof) (er : Option Digest) (sp : StorageProof) (r : Digest)
    (db : MemDB) (h : p.to_storage_proof cap er = .ok (sp, r))
    (hdb : p.to_memory_db cap er = .ok (db, r)) :
    sp = StorageProof.new (db.filterMap fun kv =>
      if 0 < kv.2.2 then some kv.2.1 else none) ∧
    (∀ z, z ∈ sp.iter_nodes ↔
      ∃ kv, kv ∈ db ∧ 0 < kv.2.2 ∧ kv.2.1 = z) := by
  rcases to_storage_proof_eq_ok h with ⟨db2, hdc, hsp⟩
  have hdb2 : db2 = db := by
    have hdb' : decode_compact cap p.encoded_nodes er = .ok (db, r) := hdb
    rw [hdc] at hdb'
    simp only [Except.ok.injEq, Prod.mk.injEq] at hdb'
    exact hdb'.1
  subst hdb2
  refine ⟨hsp, ?_⟩
  intro z
  rw [hsp]
  show z ∈ fromIter _ ↔ _
  rw [mem_fromIter, List.mem_filterMap]
  constructor
  · rintro ⟨kv, hkv, hf⟩
    by_cases hc : 0 < kv.2.2
    · rw [if_pos hc] at hf
      exact ⟨kv, hkv, hc, Option.some.inj hf⟩
    · rw [if_neg hc] at hf
      cases hf
  · rintro ⟨kv, hkv, hc, hz⟩
    exact ⟨kv, hkv, by rw [if_pos hc, hz]⟩

/-- C6 witness: decoding a concrete two-entry proof where the first node gets
reference count 0 and the second count 1, the rebuilt proof keeps exactly the
positive-count node. -/
theorem to_storage_proof_filters_positive_refcount_witness :
    StorageProof.new [[5]] = StorageProof.new
      (([([5], [5], 1), ([9], [9], 0)] : MemDB).filterMap fun kv =>
        if 0 < kv.2.2 then some kv.2.1 else none) :=
  (to_storage_proof_filters_positive_refcount mixCap ⟨[[9], [5]]⟩ none
    (StorageProof.new [[5]]) [5] [([5], [5], 1), ([9], [9], 0)]
    rfl rfl).1

/-- C7: `encoded_compact_size` returns `None` exactly when
`into_compact_proof` fails, and otherwise returns the encoded byte length of
the compact proof `into_compact_proof` produces. -/
theorem encoded_compact_size_spec (hashFn : Bytes → Digest)
    (enc : MemDB → Digest → Except CompactError CompactProof)
    (encodedSize : CompactProof → Nat) (p : StorageProof) (root : Digest) :
    (p.encoded_compact_size hashFn enc encodedSize root = none ↔
      ∃ err, p.into_compact_proof hashFn enc root = .error err) ∧
    (∀ cp, p.into_compact_proof hashFn enc root = .ok cp →
      p.encoded_compact_size hashFn enc encodedSize root =
        some (encodedSize cp)) := by
  unfold StorageProof.encoded_compact_size
  rcases hcp : p.into_compact_proof hashFn enc root with err | cp
  · refine ⟨⟨fun _ => ⟨err, rfl⟩, fun _ => rfl⟩, ?_⟩
    intro cp hc
    cases hc
  · refine ⟨⟨fun hnone => ?_, ?_⟩, ?_⟩
    · exact Option.noConfusion hnone
    · rintro ⟨err, herr⟩
      cases herr
    · intro cp2 hc
      cases hc
      rfl

/-- C7 witness: with a sample engine that succeeds with the one-entry compact
proof `[[1]]`, `encoded_compact_size` returns its encoded length. -/
theorem encoded_compact_size_spec_witness :
    StorageProof.encoded_compact_size (fun b => b) okEnc
      (fun c => c.encoded_nodes.length) (StorageProof.new [[1]]) [0] =
      some 1 :=
  (encoded_compact_size_spec (fun b => b) okEnc
    (fun c => c.encoded_nodes.length) (StorageProof.new [[1]]) [0]).2
    ⟨[[1]]⟩ rfl

/-- C10: the consuming and borrowing conversion pairs agree:
`into_compact_proof` equals `to_compact_proof` (the consuming form delegates
to the same memory-store construction), and `into_memory_db` equals
`to_memory_db` (the consuming `From` implementation delegates to the
borrowing one). -/
theorem into_and_to_conversions_agree (hashFn : Bytes → Digest)
    (enc : MemDB → Digest → Except CompactError CompactProof)
    (p : StorageProof) (root : Digest) :
    p.into_compact_proof hashFn enc root =
      p.to_compact_proof hashFn enc root ∧
    p.into_memory_db hashFn = p.to_memory_db hashFn :=
  ⟨rfl, rfl⟩

end SpTrie
